import Mathlib

/-!
Verification of the Hades252 permutation core (`src/permutation.rs`) against its
natural-language specification.

The embedding is a shallow translation of the Rust source:
* `Scalar` is the curve25519 scalar field, a prime-order field `ZMod ℓ`.
* Fallible evaluation is `EvalRes`: `ok`, the `NoMoreConstants` error of `PermError`,
  or `panicked` for the unconditional `new_words[0]` indexing that aborts on an
  empty word vector.
* Mutating methods (`input`, `inputs`, `input_bytes`, `reset`) become explicit
  state passing: they return the (possibly unchanged) post-state together with the
  `Result<(), PermError>` value.
* The bulletproofs R1CS is modelled in prover semantics: a `CS` holds the committed
  input assignment and the list of multiplication gates (left, right, output wire
  values); `CS.multiply` evaluates its two linear-combination operands under the
  current assignment and appends the gate, exactly as the prover-side
  `ConstraintSystem::multiply` does.

The collaborators that live outside `src/` (`round_constants.rs`, `mds_matrix.rs`,
`Scalar::hash_from_bytes`) are modelled from the spec; each such definition carries
a doc comment beginning `Modelled from the spec:`.
-/

namespace Hades252

/-- Order of the curve25519 scalar field: ℓ = 2^252 + 27742317777372353535851937790883648493. -/
def scalarOrder : ℕ := 2 ^ 252 + 27742317777372353535851937790883648493

/-- The scalar field `curve25519_dalek::scalar::Scalar`. -/
abbrev Scalar := ZMod scalarOrder

/-- The error enum `PermError` of `errors.rs` (as used by `permutation.rs`). -/
inductive PermError : Type where
  | fullRoundsOdd
  | inputFull
  | noMoreConstants
deriving DecidableEq

/-- Result of an evaluation step: success, the `NoMoreConstants` error, or the
abort of the unconditional `new_words[0]` index on an empty vector. -/
inductive EvalRes (α : Type) : Type where
  | ok (a : α)
  | noMoreConstants
  | panicked
deriving DecidableEq

/-- `?`-propagation of `EvalRes`. -/
def EvalRes.bind {α β : Type} : EvalRes α → (α → EvalRes β) → EvalRes β
  | .ok a, f => f a
  | .noMoreConstants, _ => .noMoreConstants
  | .panicked, _ => .panicked

/-- `for _ in 0..n { x = f(x)? }`. -/
def iterRounds {α : Type} (f : α → EvalRes α) : Nat → α → EvalRes α
  | 0, a => .ok a
  | n + 1, a => (f a).bind (iterRounds f n)

/-- Modelled from the spec: `round_constants.rs` is not under `src/`.  §6 requires
`RoundConstants::generate(full_rounds, partial_rounds, width)` to be deterministic in
the three integers and to produce exactly `width * (full_rounds + partial_rounds)`
field elements.  The individual values are opaque external data; they are modelled
as the canonical casts of `0, 1, 2, …`. -/
def RoundConstants.generate (fullR pR w : Nat) : List Scalar :=
  (List.range (w * (fullR + pR))).map fun i => (Nat.cast i : Scalar)

/-- Modelled from the spec: `mds_matrix.rs` is not under `src/`.  §6 requires
`MDSMatrix::generate(width)` to be deterministic in `width` and to produce a
`width × width` field matrix.  The entries are opaque external data; they are
modelled as distinct casts. -/
def MDSMatrix.generate (w : Nat) : List (List Scalar) :=
  (List.range w).map fun i => (List.range w).map fun j => (Nat.cast (i * w + j + 1) : Scalar)

/-- Modelled from the spec: the concrete matrix-vector multiply of `mds_matrix.rs`
is not under `src/`.  §6 calls it a linear transform, and §4.2 states that the
evaluated vector keeps the length of the buffer contents, so the multiply preserves
the input vector's length: entry `i` is the dot product of matrix row `i` with the
vector. -/
def MDSMatrix.mul_vector (m : List (List Scalar)) (v : List Scalar) : List Scalar :=
  (m.take v.length).map fun row => (List.zipWith (· * ·) row v).sum

/-- Modelled from the spec: the SHA-512 hash-to-field map behind
`Scalar::hash_from_bytes::<Sha512>` is external to the core.  §6 only requires a
deterministic map from arbitrary byte strings to one field element; it is modelled
as a deterministic fold of the bytes (collision resistance plays no role in the
claims). -/
def hash_from_bytes (bytes : List (Fin 256)) : Scalar :=
  ((bytes.foldl (fun a b => a * 256 + b.val) 0 : Nat) : Scalar)

/-- The `Permutation` struct of `permutation.rs`. -/
structure Permutation : Type where
  t : Nat
  full_rounds : Nat
  partial_rounds : Nat
  data : List Scalar
  constants : List Scalar
  matrix : List (List Scalar)
deriving DecidableEq

/-- `impl Default for Permutation`: width 9, 8 full rounds, 59 partial rounds,
empty buffer, generated constants and matrix. -/
def Permutation.default : Permutation :=
  { t := 9, full_rounds := 8, partial_rounds := 59, data := [],
    constants := RoundConstants.generate 8 59 9, matrix := MDSMatrix.generate 9 }

/-- `Permutation::new`. -/
def Permutation.new (t fullR pR : Nat) : Except PermError Permutation :=
  if fullR % 2 ≠ 0 then .error .fullRoundsOdd
  else .ok { t := t, full_rounds := fullR, partial_rounds := pR, data := [],
             constants := RoundConstants.generate fullR pR t,
             matrix := MDSMatrix.generate t }

/-- `Permutation::inputs`: batch append, all-or-nothing.  The returned pair is the
`Result<(), PermError>` together with the post-state of `&mut self`. -/
def Permutation.inputs (perm : Permutation) (scalars : List Scalar) :
    Except PermError Unit × Permutation :=
  if perm.t < scalars.length + perm.data.length then (.error .inputFull, perm)
  else (.ok (), { perm with data := perm.data ++ scalars })

/-- `Permutation::reset`. -/
def Permutation.reset (perm : Permutation) : Permutation :=
  { perm with data := [] }

/-- `Permutation::input_full`. -/
def Permutation.input_full (perm : Permutation) : Bool :=
  perm.data.length == perm.t

/-- `Permutation::width_left`. -/
def Permutation.width_left (perm : Permutation) : Nat :=
  perm.t - perm.data.length

/-- `Permutation::input`. -/
def Permutation.input (perm : Permutation) (scalar : Scalar) :
    Except PermError Unit × Permutation :=
  if perm.input_full then (.error .inputFull, perm)
  else (.ok (), { perm with data := perm.data ++ [scalar] })

/-- `Permutation::input_bytes`: hash the bytes to one scalar, then delegate to
`input`. -/
def Permutation.input_bytes (perm : Permutation) (bytes : List (Fin 256)) :
    Except PermError Unit × Permutation :=
  perm.input (hash_from_bytes bytes)

/-- `Permutation::add_round_key`: draw one constant per word, in order, from the
cursor (here: an index `k` into the constant table) and add it to the word. -/
def Permutation.add_round_key (consts : List Scalar) : Nat → List Scalar →
    EvalRes (List Scalar × Nat)
  | k, [] => .ok ([], k)
  | k, w :: ws =>
    match consts.get? k with
    | none => .noMoreConstants
    | some c =>
      (Permutation.add_round_key consts (k + 1) ws).bind fun r =>
        .ok ((w + c) :: r.1, r.2)

/-- `Permutation::quintic_s_box`: `scalar * scalar * scalar * scalar * scalar`. -/
def Permutation.quintic_s_box (scalar : Scalar) : Scalar :=
  scalar * scalar * scalar * scalar * scalar

/-- `Permutation::apply_full_round`: key addition, S-box on every word, MDS mix. -/
def Permutation.apply_full_round (m : List (List Scalar)) (consts : List Scalar)
    (k : Nat) (words : List Scalar) : EvalRes (List Scalar × Nat) :=
  (Permutation.add_round_key consts k words).bind fun r =>
    .ok (MDSMatrix.mul_vector m (r.1.map Permutation.quintic_s_box), r.2)

/-- `Permutation::apply_partial_round`: key addition, S-box on word 0 only
(`new_words[0] = …`, which aborts on an empty vector), MDS mix. -/
def Permutation.apply_partial_round (m : List (List Scalar)) (consts : List Scalar)
    (k : Nat) (words : List Scalar) : EvalRes (List Scalar × Nat) :=
  (Permutation.add_round_key consts k words).bind fun r =>
    match r.1 with
    | [] => .panicked
    | w0 :: rest => .ok (MDSMatrix.mul_vector m (Permutation.quintic_s_box w0 :: rest), r.2)

/-- One concrete full-round step of the schedule, on a (words, cursor) state. -/
def Permutation.fullStep (perm : Permutation) (s : List Scalar × Nat) :
    EvalRes (List Scalar × Nat) :=
  Permutation.apply_full_round perm.matrix perm.constants s.2 s.1

/-- One concrete partial-round step of the schedule, on a (words, cursor) state. -/
def Permutation.partStep (perm : Permutation) (s : List Scalar × Nat) :
    EvalRes (List Scalar × Nat) :=
  Permutation.apply_partial_round perm.matrix perm.constants s.2 s.1

/-- `Permutation::result` with the final constant cursor kept visible:
R_f/2 full rounds, R_P partial rounds, R_f/2 full rounds on a working copy of the
buffer, with a fresh cursor starting at 0. -/
def Permutation.resultAux (perm : Permutation) : EvalRes (List Scalar × Nat) :=
  (iterRounds perm.fullStep (perm.full_rounds / 2) (perm.data, 0)).bind fun s1 =>
  (iterRounds perm.partStep perm.partial_rounds s1).bind fun s2 =>
  iterRounds perm.fullStep (perm.full_rounds / 2) s2

/-- `Permutation::result`: the evaluated word vector (the cursor is internal). -/
def Permutation.result (perm : Permutation) : EvalRes (List Scalar) :=
  perm.resultAux.bind fun s => .ok s.1

end Hades252

namespace Hades252

/-- A bulletproofs R1CS variable: the constant `One`, a committed input, or one of
the three wires of a multiplication gate. -/
inductive Variable : Type where
  | one
  | committed (i : Nat)
  | mulL (i : Nat)
  | mulR (i : Nat)
  | mulO (i : Nat)
deriving DecidableEq

/-- A bulletproofs `LinearCombination`: a list of (variable, coefficient) terms. -/
abbrev LinComb := List (Variable × Scalar)

/-- Prover-side constraint system state: the committed input assignment and the
already-allocated multiplication gates, gate `i` holding the values of its left,
right and output wires. -/
structure CS : Type where
  inputs : List Scalar
  muls : List (Scalar × Scalar × Scalar)
deriving DecidableEq

/-- Value of a variable under the prover assignment. -/
def CS.evalVar (cs : CS) : Variable → Scalar
  | .one => 1
  | .committed i => cs.inputs.getD i 0
  | .mulL i => (cs.muls.getD i (0, 0, 0)).1
  | .mulR i => (cs.muls.getD i (0, 0, 0)).2.1
  | .mulO i => (cs.muls.getD i (0, 0, 0)).2.2

/-- Value of a linear combination under the prover assignment. -/
def CS.evalLC (cs : CS) (lc : LinComb) : Scalar :=
  (lc.map fun p => p.2 * cs.evalVar p.1).sum

/-- Prover-side `ConstraintSystem::multiply`: evaluate the two operand linear
combinations, allocate a fresh gate whose wires carry the two values and their
product, and return the three wire variables. -/
def CS.multiply (cs : CS) (l r : LinComb) : (Variable × Variable × Variable) × CS :=
  ((.mulL cs.muls.length, .mulR cs.muls.length, .mulO cs.muls.length),
   { cs with muls := cs.muls ++ [(cs.evalLC l, cs.evalLC r, cs.evalLC l * cs.evalLC r)] })

/-- `Permutation::constrain_quintic_s_box`: three gates `x*x → x²`,
`x²*x² → x⁴`, `x⁴*x → x⁵`; the result is the third gate's output wire (note the
Rust code rebinds `lc` to the first gate's left wire and feeds it to gate 3). -/
def Permutation.constrain_quintic_s_box (lc : LinComb) (cs : CS) : LinComb × CS :=
  match cs.multiply lc lc with
  | ((l, _, square), cs1) =>
    match cs1.multiply [(square, 1)] [(square, 1)] with
    | ((_, _, quartic), cs2) =>
      match cs2.multiply [(quartic, 1)] [(l, 1)] with
      | ((_, _, q5), cs3) => ([(q5, 1)], cs3)

/-- `Permutation::constrain_add_round_key`: draw one constant per word, in order,
lift it to a linear combination `[(One, c)]` and add it (bulletproofs
`LinearCombination` addition concatenates the term lists). -/
def Permutation.constrain_add_round_key (consts : List Scalar) : Nat → List LinComb →
    EvalRes (List LinComb × Nat)
  | k, [] => .ok ([], k)
  | k, w :: ws =>
    match consts.get? k with
    | none => .noMoreConstants
    | some c =>
      (Permutation.constrain_add_round_key consts (k + 1) ws).bind fun r =>
        .ok ((w ++ [(.one, c)]) :: r.1, r.2)

/-- Scaling of a linear combination by a constant (bulletproofs `Mul<Scalar>`):
scale every coefficient. -/
def smulLC (c : Scalar) (lc : LinComb) : LinComb :=
  lc.map fun p => (p.1, c * p.2)

/-- Modelled from the spec: the constrained matrix-vector multiply of
`mds_matrix.rs` is not under `src/`.  §4.3/§6: it is the gate-free
linear-combination analogue of the concrete multiply (the matrix entries are
constants, so each output entry is a pure linear combination of the inputs), with
the same shape as `MDSMatrix.mul_vector`. -/
def MDSMatrix.constrain_mul_vector (m : List (List Scalar)) (lcs : List LinComb) :
    List LinComb :=
  (m.take lcs.length).map fun row => (List.zipWith smulLC row lcs).flatten

/-- The sequential S-box map of `constrain_apply_full_round`, threading the
constraint system left to right through the word vector. -/
def Permutation.constrain_quintic_list : List LinComb → CS → List LinComb × CS
  | [], cs => ([], cs)
  | lc :: rest, cs =>
    match Permutation.constrain_quintic_s_box lc cs with
    | (q, cs1) =>
      match Permutation.constrain_quintic_list rest cs1 with
      | (qs, cs2) => (q :: qs, cs2)

/-- `Permutation::constrain_apply_full_round`. -/
def Permutation.constrain_apply_full_round (m : List (List Scalar)) (consts : List Scalar)
    (k : Nat) (words : List LinComb) (cs : CS) : EvalRes (List LinComb × Nat × CS) :=
  (Permutation.constrain_add_round_key consts k words).bind fun r =>
    match Permutation.constrain_quintic_list r.1 cs with
    | (qs, cs1) => .ok (MDSMatrix.constrain_mul_vector m qs, r.2, cs1)

/-- `Permutation::constrain_apply_partial_round`: S-box (gates) on word 0 only;
the unconditional `new_words[0]` write aborts on an empty vector. -/
def Permutation.constrain_apply_partial_round (m : List (List Scalar)) (consts : List Scalar)
    (k : Nat) (words : List LinComb) (cs : CS) : EvalRes (List LinComb × Nat × CS) :=
  (Permutation.constrain_add_round_key consts k words).bind fun r =>
    match r.1 with
    | [] => .panicked
    | w0 :: rest =>
      match Permutation.constrain_quintic_s_box w0 cs with
      | (q, cs1) => .ok (MDSMatrix.constrain_mul_vector m (q :: rest), r.2, cs1)

/-- One constrained full-round step, on a (words, cursor, constraint system) state. -/
def Permutation.cFullStep (perm : Permutation) (s : List LinComb × Nat × CS) :
    EvalRes (List LinComb × Nat × CS) :=
  Permutation.constrain_apply_full_round perm.matrix perm.constants s.2.1 s.1 s.2.2

/-- One constrained partial-round step, on a (words, cursor, constraint system) state. -/
def Permutation.cPartStep (perm : Permutation) (s : List LinComb × Nat × CS) :
    EvalRes (List LinComb × Nat × CS) :=
  Permutation.constrain_apply_partial_round perm.matrix perm.constants s.2.1 s.1 s.2.2

/-- `Permutation::constrain_result` with the final constant cursor kept visible:
the same R_f/2 / R_P / R_f/2 schedule as `resultAux`, on the input variables
lifted to linear combinations, with a fresh cursor starting at 0. -/
def Permutation.constrain_resultAux (perm : Permutation) (cs : CS) (words : List Variable) :
    EvalRes (List LinComb × Nat × CS) :=
  (iterRounds perm.cFullStep (perm.full_rounds / 2)
      (words.map (fun v => [(v, 1)]), 0, cs)).bind fun s1 =>
  (iterRounds perm.cPartStep perm.partial_rounds s1).bind fun s2 =>
  iterRounds perm.cFullStep (perm.full_rounds / 2) s2

/-- `Permutation::constrain_result`: the output linear combinations together with
the mutated constraint system. -/
def Permutation.constrain_result (perm : Permutation) (cs : CS) (words : List Variable) :
    EvalRes (List LinComb × CS) :=
  (perm.constrain_resultAux cs words).bind fun s => .ok (s.1, s.2.2)

/-- A variable only refers to gates allocated among the first `n` ones (committed
inputs and `One` are always valid). -/
def Variable.ValidIn (n : Nat) : Variable → Prop
  | .mulL i => i < n
  | .mulR i => i < n
  | .mulO i => i < n
  | _ => True

instance (n : Nat) : DecidablePred (Variable.ValidIn n) := fun v =>
  match v with
  | .one => isTrue trivial
  | .committed _ => isTrue trivial
  | .mulL i => inferInstanceAs (Decidable (i < n))
  | .mulR i => inferInstanceAs (Decidable (i < n))
  | .mulO i => inferInstanceAs (Decidable (i < n))

/-- All variables of a linear combination refer to already-allocated gates. -/
def LCValid (n : Nat) (lc : LinComb) : Prop := ∀ p ∈ lc, p.1.ValidIn n

/-- All linear combinations of a word vector refer to already-allocated gates. -/
def LCsValid (n : Nat) (lcs : List LinComb) : Prop := ∀ lc ∈ lcs, LCValid n lc

/-- `cs2` extends `cs`: same committed inputs, and the gate list of `cs` is an
initial segment of that of `cs2`. -/
def CS.Extends (cs cs2 : CS) : Prop :=
  cs2.inputs = cs.inputs ∧ ∃ ext, cs2.muls = cs.muls ++ ext

/-- Simulation invariant between a constrained word vector and a concrete one:
the linear combinations only mention allocated gates, and evaluate pointwise to
the concrete words. -/
def SimInv (cs : CS) (lcs : List LinComb) (ws : List Scalar) : Prop :=
  LCsValid cs.muls.length lcs ∧ lcs.map cs.evalLC = ws

/-- Matching of a concrete evaluation state with a constrained one: identical
outcome kind, and on success an identical constant cursor plus the simulation
invariant between the word vectors. -/
def StateMatch : EvalRes (List Scalar × Nat) → EvalRes (List LinComb × Nat × CS) → Prop
  | .ok s, .ok u => u.2.1 = s.2 ∧ SimInv u.2.2 u.1 s.1
  | .noMoreConstants, .noMoreConstants => True
  | .panicked, .panicked => True
  | _, _ => False

end Hades252

namespace Hades252

theorem EvalRes.bind_ok {α β : Type} (a : α) (f : α → EvalRes β) :
    (EvalRes.ok a).bind f = f a := rfl

theorem EvalRes.bind_noMoreConstants {α β : Type} (f : α → EvalRes β) :
    (EvalRes.noMoreConstants).bind f = .noMoreConstants := rfl

theorem EvalRes.bind_panicked {α β : Type} (f : α → EvalRes β) :
    (EvalRes.panicked).bind f = .panicked := rfl

theorem iterRounds_zero {α : Type} (f : α → EvalRes α) (a : α) :
    iterRounds f 0 a = .ok a := rfl

theorem iterRounds_succ {α : Type} (f : α → EvalRes α) (n : Nat) (a : α) :
    iterRounds f (n + 1) a = (f a).bind (iterRounds f n) := rfl

theorem CS.Extends.refl (cs : CS) : cs.Extends cs := ⟨rfl, [], by simp⟩

theorem CS.Extends.trans {c1 c2 c3 : CS} (h1 : c1.Extends c2) (h2 : c2.Extends c3) :
    c1.Extends c3 := by
  obtain ⟨hi1, e1, hm1⟩ := h1
  obtain ⟨hi2, e2, hm2⟩ := h2
  exact ⟨hi2.trans hi1, e1 ++ e2, by rw [hm2, hm1, List.append_assoc]⟩

theorem CS.Extends.length_le {c1 c2 : CS} (h : c1.Extends c2) :
    c1.muls.length ≤ c2.muls.length := by
  obtain ⟨-, e, hm⟩ := h
  simp [hm]

theorem validIn_mono {n n2 : Nat} (h : n ≤ n2) {v : Variable}
    (hv : v.ValidIn n) : v.ValidIn n2 := by
  cases v <;> simp [Variable.ValidIn] at hv ⊢ <;> omega

theorem lcValid_mono {n n2 : Nat} (h : n ≤ n2) {lc : LinComb}
    (hlc : LCValid n lc) : LCValid n2 lc :=
  fun p hp => validIn_mono h (hlc p hp)

theorem lcsValid_mono {n n2 : Nat} (h : n ≤ n2) {lcs : List LinComb}
    (hlcs : LCsValid n lcs) : LCsValid n2 lcs :=
  fun lc hlc => lcValid_mono h (hlcs lc hlc)

theorem CS.evalLC_nil (cs : CS) : cs.evalLC [] = 0 := rfl

theorem CS.evalLC_cons (cs : CS) (p : Variable × Scalar) (ps : LinComb) :
    cs.evalLC (p :: ps) = p.2 * cs.evalVar p.1 + cs.evalLC ps := by
  simp [CS.evalLC]

theorem CS.evalLC_append (cs : CS) (l1 l2 : LinComb) :
    cs.evalLC (l1 ++ l2) = cs.evalLC l1 + cs.evalLC l2 := by
  simp [CS.evalLC]

theorem CS.evalLC_single (cs : CS) (v : Variable) (c : Scalar) :
    cs.evalLC [(v, c)] = c * cs.evalVar v := by
  simp [CS.evalLC]

theorem CS.evalLC_smul (cs : CS) (c : Scalar) (lc : LinComb) :
    cs.evalLC (smulLC c lc) = c * cs.evalLC lc := by
  induction lc with
  | nil => simp [smulLC, CS.evalLC]
  | cons p ps ih =>
    simp only [smulLC, List.map_cons] at ih ⊢
    rw [CS.evalLC_cons, CS.evalLC_cons, ih]
    ring

theorem evalVar_extends {cs cs2 : CS} (h : cs.Extends cs2) {v : Variable}
    (hv : v.ValidIn cs.muls.length) : cs2.evalVar v = cs.evalVar v := by
  obtain ⟨hi, e, hm⟩ := h
  cases v with
  | one => rfl
  | committed i => simp [CS.evalVar, hi]
  | mulL i =>
    simp only [Variable.ValidIn] at hv
    simp only [CS.evalVar, hm]
    rw [List.getD_append _ _ _ _ hv]
  | mulR i =>
    simp only [Variable.ValidIn] at hv
    simp only [CS.evalVar, hm]
    rw [List.getD_append _ _ _ _ hv]
  | mulO i =>
    simp only [Variable.ValidIn] at hv
    simp only [CS.evalVar, hm]
    rw [List.getD_append _ _ _ _ hv]

theorem evalLC_extends {cs cs2 : CS} (h : cs.Extends cs2) {lc : LinComb}
    (hlc : LCValid cs.muls.length lc) : cs2.evalLC lc = cs.evalLC lc := by
  induction lc with
  | nil => rfl
  | cons p ps ih =>
    rw [CS.evalLC_cons, CS.evalLC_cons,
      evalVar_extends h (hlc p (by simp)),
      ih (fun q hq => hlc q (by simp [hq]))]

end Hades252

namespace Hades252

theorem getD_append_add {α : Type} (l l2 : List α) (i : Nat) (d : α) :
    (l ++ l2).getD (l.length + i) d = l2.getD i d := by
  rw [List.getD_append_right _ _ _ _ (Nat.le_add_right _ _), Nat.add_sub_cancel_left]

theorem getD_append_zero {α : Type} (l : List α) (x : α) (l2 : List α) (d : α) :
    (l ++ x :: l2).getD l.length d = x := by
  simpa using getD_append_add l (x :: l2) 0 d

theorem getD_append_one {α : Type} (l : List α) (x y : α) (l2 : List α) (d : α) :
    (l ++ x :: y :: l2).getD (l.length + 1) d = y := by
  simpa [List.getD] using getD_append_add l (x :: y :: l2) 1 d

theorem getD_append_two {α : Type} (l : List α) (x y z : α) (l2 : List α) (d : α) :
    (l ++ x :: y :: z :: l2).getD (l.length + 2) d = z := by
  simpa [List.getD] using getD_append_add l (x :: y :: z :: l2) 2 d

theorem CS.multiply_eq (cs : CS) (l r : LinComb) :
    cs.multiply l r =
      ((.mulL cs.muls.length, .mulR cs.muls.length, .mulO cs.muls.length),
       ⟨cs.inputs, cs.muls ++ [(cs.evalLC l, cs.evalLC r, cs.evalLC l * cs.evalLC r)]⟩) := rfl

theorem Permutation.constrain_quintic_s_box_eq (lc : LinComb) (cs : CS) :
    Permutation.constrain_quintic_s_box lc cs =
      ([(.mulO (cs.muls.length + 2), (1 : Scalar))],
       ⟨cs.inputs,
        cs.muls ++
          [(cs.evalLC lc, cs.evalLC lc, cs.evalLC lc * cs.evalLC lc),
           (cs.evalLC lc * cs.evalLC lc, cs.evalLC lc * cs.evalLC lc,
            cs.evalLC lc * cs.evalLC lc * (cs.evalLC lc * cs.evalLC lc)),
           (cs.evalLC lc * cs.evalLC lc * (cs.evalLC lc * cs.evalLC lc), cs.evalLC lc,
            cs.evalLC lc * cs.evalLC lc * (cs.evalLC lc * cs.evalLC lc) * cs.evalLC lc)]⟩) := by
  simp only [Permutation.constrain_quintic_s_box, CS.multiply_eq]
  simp only [CS.evalLC_single, CS.evalVar, List.append_assoc, List.cons_append,
    List.nil_append, List.length_append, List.length_cons, List.length_nil,
    getD_append_zero, getD_append_one, one_mul, Nat.zero_add]

end Hades252

namespace Hades252

theorem LCValid_append {n : Nat} {l1 l2 : LinComb} (h1 : LCValid n l1) (h2 : LCValid n l2) :
    LCValid n (l1 ++ l2) := by
  intro p hp
  rcases List.mem_append.1 hp with h | h
  · exact h1 p h
  · exact h2 p h

theorem LCValid_one_const (n : Nat) (c : Scalar) : LCValid n [(Variable.one, c)] := by
  intro p hp
  simp at hp
  subst hp
  trivial

theorem LCValid_smul {n : Nat} (c : Scalar) {lc : LinComb} (h : LCValid n lc) :
    LCValid n (smulLC c lc) := by
  intro p hp
  simp only [smulLC, List.mem_map] at hp
  obtain ⟨q, hq, rfl⟩ := hp
  exact h q hq

theorem constrain_quintic_sim (cs : CS) (lc : LinComb) :
    CS.Extends cs (Permutation.constrain_quintic_s_box lc cs).2 ∧
    (Permutation.constrain_quintic_s_box lc cs).2.muls.length = cs.muls.length + 3 ∧
    LCValid (cs.muls.length + 3) (Permutation.constrain_quintic_s_box lc cs).1 ∧
    (Permutation.constrain_quintic_s_box lc cs).2.evalLC (Permutation.constrain_quintic_s_box lc cs).1
      = Permutation.quintic_s_box (cs.evalLC lc) := by
  rw [Permutation.constrain_quintic_s_box_eq]
  refine ⟨⟨rfl, _, rfl⟩, by simp, ?_, ?_⟩
  · intro p hp
    simp at hp
    subst hp
    simp [Variable.ValidIn]
  · rw [CS.evalLC_single]
    simp only [CS.evalVar, getD_append_two, one_mul, Permutation.quintic_s_box]
    ring

theorem constrain_quintic_list_sim (lcs : List LinComb) : ∀ (cs : CS),
    LCsValid cs.muls.length lcs →
    CS.Extends cs (Permutation.constrain_quintic_list lcs cs).2 ∧
    LCsValid (Permutation.constrain_quintic_list lcs cs).2.muls.length
      (Permutation.constrain_quintic_list lcs cs).1 ∧
    ((Permutation.constrain_quintic_list lcs cs).1).map
        (Permutation.constrain_quintic_list lcs cs).2.evalLC
      = (lcs.map cs.evalLC).map Permutation.quintic_s_box := by
  induction lcs with
  | nil =>
    intro cs h
    exact ⟨CS.Extends.refl cs, by simp [Permutation.constrain_quintic_list, LCsValid],
      by simp [Permutation.constrain_quintic_list]⟩
  | cons lc rest ih =>
    intro cs h
    have hq := constrain_quintic_sim cs lc
    rcases hqe : Permutation.constrain_quintic_s_box lc cs with ⟨q, cs1⟩
    rw [hqe] at hq
    dsimp only at hq
    obtain ⟨hext1, hlen1, hqv, hqe1⟩ := hq
    have hrest : LCsValid cs1.muls.length rest := by
      refine lcsValid_mono ?_ (fun x hx => h x (by simp [hx]))
      rw [hlen1]; omega
    have hih := ih cs1 hrest
    rcases hre : Permutation.constrain_quintic_list rest cs1 with ⟨qs, cs2⟩
    rw [hre] at hih
    dsimp only at hih
    obtain ⟨hext2, hqsv, hqse⟩ := hih
    have hstep : Permutation.constrain_quintic_list (lc :: rest) cs = (q :: qs, cs2) := by
      simp [Permutation.constrain_quintic_list, hqe, hre]
    rw [hstep]
    refine ⟨hext1.trans hext2, ?_, ?_⟩
    · intro x hx
      rcases List.mem_cons.1 hx with rfl | hx
      · exact lcValid_mono (by rw [← hlen1]; exact hext2.length_le) hqv
      · exact hqsv x hx
    · have hq2 : cs2.evalLC q = Permutation.quintic_s_box (cs.evalLC lc) := by
        rw [evalLC_extends hext2 (by rw [hlen1]; exact hqv), hqe1]
      have hrest2 : rest.map cs1.evalLC = rest.map cs.evalLC := by
        refine List.map_congr_left fun x hx => ?_
        exact evalLC_extends hext1 (h x (by simp [hx]))
      simp only [List.map_cons, hq2, hqse, hrest2]

end Hades252

namespace Hades252

theorem constrain_add_round_key_sim (consts : List Scalar) (cs : CS) :
    ∀ (lcs : List LinComb) (k : Nat),
    (Permutation.add_round_key consts k (lcs.map cs.evalLC) = .noMoreConstants ∧
     Permutation.constrain_add_round_key consts k lcs = .noMoreConstants) ∨
    (∃ nl k2, Permutation.constrain_add_round_key consts k lcs = .ok (nl, k2) ∧
      Permutation.add_round_key consts k (lcs.map cs.evalLC) = .ok (nl.map cs.evalLC, k2) ∧
      (∀ n, LCsValid n lcs → LCsValid n nl) ∧ nl.length = lcs.length) := by
  intro lcs
  induction lcs with
  | nil =>
    intro k
    exact Or.inr ⟨[], k, rfl, rfl, fun n h => h, rfl⟩
  | cons w ws ih =>
    intro k
    rcases hc : consts[k]? with - | c
    · refine Or.inl ⟨?_, ?_⟩
      · simp [Permutation.add_round_key, hc]
      · simp [Permutation.constrain_add_round_key, hc]
    · rcases ih (k + 1) with ⟨h1, h2⟩ | ⟨nl, k2, h1, h2, hv, hl⟩
      · refine Or.inl ⟨?_, ?_⟩
        · simp [Permutation.add_round_key, hc, h1, EvalRes.bind]
        · simp [Permutation.constrain_add_round_key, hc, h2, EvalRes.bind]
      · refine Or.inr ⟨(w ++ [(.one, c)]) :: nl, k2, ?_, ?_, ?_, by simp [hl]⟩
        · simp [Permutation.constrain_add_round_key, hc, h1, EvalRes.bind]
        · have he : cs.evalLC (w ++ [(Variable.one, c)]) = cs.evalLC w + c := by
            rw [CS.evalLC_append, CS.evalLC_single]
            simp [CS.evalVar]
          simp only [List.map_cons, Permutation.add_round_key, List.get?_eq_getElem?,
            hc, h2, EvalRes.bind, he]
        · intro n hws
          intro x hx
          rcases List.mem_cons.1 hx with rfl | hx
          · exact LCValid_append (hws w (by simp)) (LCValid_one_const n c)
          · exact hv n (fun y hy => hws y (by simp [hy])) x hx

theorem evalLC_zip_smul (cs : CS) :
    ∀ (row : List Scalar) (lcs : List LinComb),
    cs.evalLC (List.zipWith smulLC row lcs).flatten
      = (List.zipWith (· * ·) row (lcs.map cs.evalLC)).sum := by
  intro row
  induction row with
  | nil => intro lcs; simp [CS.evalLC]
  | cons c cr ih =>
    intro lcs
    cases lcs with
    | nil => simp [CS.evalLC]
    | cons lc lcr =>
      simp only [List.zipWith_cons_cons, List.flatten_cons, List.map_cons, List.sum_cons]
      rw [CS.evalLC_append, CS.evalLC_smul, ih]

theorem LCValid_zip_smul {n : Nat} :
    ∀ (row : List Scalar) (lcs : List LinComb), LCsValid n lcs →
    LCValid n (List.zipWith smulLC row lcs).flatten := by
  intro row
  induction row with
  | nil => intro lcs h p hp; simp at hp
  | cons c cr ih =>
    intro lcs h
    cases lcs with
    | nil => intro p hp; simp at hp
    | cons lc lcr =>
      simp only [List.zipWith_cons_cons, List.flatten_cons]
      exact LCValid_append (LCValid_smul c (h lc (by simp)))
        (ih lcr (fun y hy => h y (by simp [hy])))

theorem constrain_mul_vector_eval (cs : CS) (m : List (List Scalar)) (lcs : List LinComb) :
    (MDSMatrix.constrain_mul_vector m lcs).map cs.evalLC
      = MDSMatrix.mul_vector m (lcs.map cs.evalLC) := by
  unfold MDSMatrix.constrain_mul_vector MDSMatrix.mul_vector
  rw [List.length_map, List.map_map]
  exact List.map_congr_left fun row _ => evalLC_zip_smul cs row lcs

theorem constrain_mul_vector_valid {n : Nat} (m : List (List Scalar)) {lcs : List LinComb}
    (h : LCsValid n lcs) : LCsValid n (MDSMatrix.constrain_mul_vector m lcs) := by
  intro lc hlc
  simp only [MDSMatrix.constrain_mul_vector, List.mem_map] at hlc
  obtain ⟨row, -, rfl⟩ := hlc
  exact LCValid_zip_smul row lcs h

theorem MDSMatrix.mul_vector_length (m : List (List Scalar)) (v : List Scalar) :
    (MDSMatrix.mul_vector m v).length = min v.length m.length := by
  simp [MDSMatrix.mul_vector]

end Hades252

namespace Hades252

theorem full_round_sim (m : List (List Scalar)) (consts : List Scalar) (k : Nat)
    {cs : CS} {lcs : List LinComb} (hval : LCsValid cs.muls.length lcs) :
    StateMatch (Permutation.apply_full_round m consts k (lcs.map cs.evalLC))
               (Permutation.constrain_apply_full_round m consts k lcs cs) := by
  rcases constrain_add_round_key_sim consts cs lcs k with ⟨h1, h2⟩ | ⟨nl, k2, hcadd, hadd, hv, hl⟩
  · unfold Permutation.apply_full_round Permutation.constrain_apply_full_round
    rw [h1, h2]
    simp [StateMatch, EvalRes.bind]
  · unfold Permutation.apply_full_round Permutation.constrain_apply_full_round
    rw [hadd, hcadd]
    simp only [EvalRes.bind]
    have hqsim := constrain_quintic_list_sim nl cs (hv _ hval)
    rcases hql : Permutation.constrain_quintic_list nl cs with ⟨qs, cs1⟩
    rw [hql] at hqsim
    dsimp only at hqsim
    obtain ⟨hext, hqv, hqe⟩ := hqsim
    refine ⟨rfl, constrain_mul_vector_valid m hqv, ?_⟩
    rw [constrain_mul_vector_eval, hqe]

theorem partial_round_sim (m : List (List Scalar)) (consts : List Scalar) (k : Nat)
    {cs : CS} {lcs : List LinComb} (hval : LCsValid cs.muls.length lcs) :
    StateMatch (Permutation.apply_partial_round m consts k (lcs.map cs.evalLC))
               (Permutation.constrain_apply_partial_round m consts k lcs cs) := by
  rcases constrain_add_round_key_sim consts cs lcs k with ⟨h1, h2⟩ | ⟨nl, k2, hcadd, hadd, hv, hl⟩
  · unfold Permutation.apply_partial_round Permutation.constrain_apply_partial_round
    rw [h1, h2]
    simp [StateMatch, EvalRes.bind]
  · unfold Permutation.apply_partial_round Permutation.constrain_apply_partial_round
    rw [hadd, hcadd]
    simp only [EvalRes.bind]
    cases nl with
    | nil => simp [StateMatch]
    | cons l0 lrest =>
      simp only [List.map_cons]
      have hq := constrain_quintic_sim cs l0
      rcases hqe : Permutation.constrain_quintic_s_box l0 cs with ⟨q, cs1⟩
      rw [hqe] at hq
      dsimp only at hq
      obtain ⟨hext, hlen, hqv, hqeval⟩ := hq
      have hnl : LCsValid cs.muls.length (l0 :: lrest) := hv _ hval
      have hrv : LCsValid cs.muls.length lrest := fun y hy => hnl y (by simp [hy])
      have hstable : lrest.map cs1.evalLC = lrest.map cs.evalLC :=
        List.map_congr_left fun y hy => evalLC_extends hext (hrv y hy)
      refine ⟨rfl, ?_, ?_⟩
      · apply constrain_mul_vector_valid
        intro x hx
        rcases List.mem_cons.1 hx with rfl | hx
        · rw [hlen]; exact hqv
        · exact lcValid_mono hext.length_le (hrv x hx)
      · rw [constrain_mul_vector_eval]
        simp only [List.map_cons, hqeval, hstable]

theorem bind_sim {r1 : EvalRes (List Scalar × Nat)} {r2 : EvalRes (List LinComb × Nat × CS)}
    {f : List Scalar × Nat → EvalRes (List Scalar × Nat)}
    {g : List LinComb × Nat × CS → EvalRes (List LinComb × Nat × CS)}
    (h : StateMatch r1 r2)
    (hf : ∀ s u, u.2.1 = s.2 → SimInv u.2.2 u.1 s.1 → StateMatch (f s) (g u)) :
    StateMatch (r1.bind f) (r2.bind g) := by
  cases r1 <;> cases r2 <;> simp only [EvalRes.bind] <;> first
    | exact h.elim
    | exact h
    | exact hf _ _ h.1 h.2

theorem iter_sim (cstep : List Scalar × Nat → EvalRes (List Scalar × Nat))
    (qstep : List LinComb × Nat × CS → EvalRes (List LinComb × Nat × CS))
    (hstep : ∀ s u, u.2.1 = s.2 → SimInv u.2.2 u.1 s.1 → StateMatch (cstep s) (qstep u)) :
    ∀ (n : Nat) (s : List Scalar × Nat) (u : List LinComb × Nat × CS),
    u.2.1 = s.2 → SimInv u.2.2 u.1 s.1 →
    StateMatch (iterRounds cstep n s) (iterRounds qstep n u) := by
  intro n
  induction n with
  | zero => intro s u hk hs; exact ⟨hk, hs⟩
  | succ n ih =>
    intro s u hk hs
    rw [iterRounds_succ, iterRounds_succ]
    exact bind_sim (hstep s u hk hs) fun s2 u2 hk2 hs2 => ih s2 u2 hk2 hs2

theorem step_sim_full (perm : Permutation) :
    ∀ (s : List Scalar × Nat) (u : List LinComb × Nat × CS),
    u.2.1 = s.2 → SimInv u.2.2 u.1 s.1 →
    StateMatch (perm.fullStep s) (perm.cFullStep u) := by
  rintro ⟨ws, k⟩ ⟨lcs, k2, cs⟩ hk ⟨hval, hev⟩
  dsimp only at hk hval hev ⊢
  subst hk
  subst hev
  exact full_round_sim perm.matrix perm.constants k2 hval

theorem step_sim_part (perm : Permutation) :
    ∀ (s : List Scalar × Nat) (u : List LinComb × Nat × CS),
    u.2.1 = s.2 → SimInv u.2.2 u.1 s.1 →
    StateMatch (perm.partStep s) (perm.cPartStep u) := by
  rintro ⟨ws, k⟩ ⟨lcs, k2, cs⟩ hk ⟨hval, hev⟩
  dsimp only at hk hval hev ⊢
  subst hk
  subst hev
  exact partial_round_sim perm.matrix perm.constants k2 hval

theorem resultAux_sim (perm : Permutation) (cs : CS) (words : List Variable)
    (hbound : words.map cs.evalVar = perm.data)
    (hvalid : ∀ v ∈ words, v.ValidIn cs.muls.length) :
    StateMatch perm.resultAux (perm.constrain_resultAux cs words) := by
  unfold Permutation.resultAux Permutation.constrain_resultAux
  have hinit : SimInv cs (words.map fun v => [(v, 1)]) perm.data := by
    constructor
    · intro lc hlc
      simp only [List.mem_map] at hlc
      obtain ⟨v, hv, rfl⟩ := hlc
      intro p hp
      simp only [List.mem_singleton] at hp
      subst hp
      exact hvalid v hv
    · rw [← hbound, List.map_map]
      refine List.map_congr_left fun v _ => ?_
      simp [CS.evalLC_single]
  refine bind_sim (iter_sim _ _ (step_sim_full perm) _ _ _ rfl hinit) ?_
  intro s1 u1 hk1 hs1
  refine bind_sim (iter_sim _ _ (step_sim_part perm) _ _ _ hk1 hs1) ?_
  intro s2 u2 hk2 hs2
  exact iter_sim _ _ (step_sim_full perm) _ _ _ hk2 hs2

end Hades252

namespace Hades252

theorem generate_constants_length (fullR pR w : Nat) :
    (RoundConstants.generate fullR pR w).length = w * (fullR + pR) := by
  unfold RoundConstants.generate
  rw [List.length_map, List.length_range]

theorem generate_matrix_length (w : Nat) : (MDSMatrix.generate w).length = w := by
  unfold MDSMatrix.generate
  rw [List.length_map, List.length_range]

theorem add_round_key_cons (consts : List Scalar) (k : Nat) (w : Scalar) (ws : List Scalar) :
    Permutation.add_round_key consts k (w :: ws) =
      match consts.get? k with
      | none => .noMoreConstants
      | some c =>
        (Permutation.add_round_key consts (k + 1) ws).bind fun r =>
          .ok ((w + c) :: r.1, r.2) := rfl

theorem add_round_key_ok (consts : List Scalar) :
    ∀ (ws : List Scalar) (k : Nat), k + ws.length ≤ consts.length →
    Permutation.add_round_key consts k ws =
      .ok (List.zipWith (· + ·) ws ((consts.drop k).take ws.length), k + ws.length) := by
  intro ws
  induction ws with
  | nil => intro k h; simp [Permutation.add_round_key]
  | cons w ws ih =>
    intro k h
    simp only [List.length_cons] at h
    have hk : k < consts.length := by omega
    rw [add_round_key_cons, List.get?_eq_getElem?, List.getElem?_eq_getElem hk]
    dsimp only
    rw [ih (k + 1) (by omega)]
    simp only [EvalRes.bind, EvalRes.ok.injEq, Prod.mk.injEq, List.length_cons]
    refine ⟨?_, by omega⟩
    rw [List.drop_eq_getElem_cons hk, List.take_succ_cons, List.zipWith_cons_cons]

theorem add_round_key_err (consts : List Scalar) :
    ∀ (ws : List Scalar) (k : Nat), 0 < ws.length → consts.length < k + ws.length →
    Permutation.add_round_key consts k ws = .noMoreConstants := by
  intro ws
  induction ws with
  | nil => intro k h1 h2; simp at h1
  | cons w ws ih =>
    intro k h1 h2
    simp only [List.length_cons] at h2
    rcases Nat.lt_or_ge k consts.length with hk | hk
    · cases ws with
      | nil => simp only [List.length_nil] at h2; exact absurd hk (by omega)
      | cons w2 rest =>
        have hrec := ih (k + 1) (by simp) (by simp only [List.length_cons] at h2 ⊢; omega)
        rw [add_round_key_cons, List.get?_eq_getElem?, List.getElem?_eq_getElem hk]
        dsimp only
        rw [hrec]
        rfl
    · rw [add_round_key_cons, List.get?_eq_getElem?, List.getElem?_eq_none hk]

theorem apply_full_round_ok (m : List (List Scalar)) (consts : List Scalar)
    (k : Nat) (ws : List Scalar) (h : k + ws.length ≤ consts.length) :
    Permutation.apply_full_round m consts k ws =
      .ok (MDSMatrix.mul_vector m
            ((List.zipWith (· + ·) ws ((consts.drop k).take ws.length)).map
              Permutation.quintic_s_box),
           k + ws.length) := by
  unfold Permutation.apply_full_round
  rw [add_round_key_ok consts ws k h]
  rfl

theorem apply_full_round_err (m : List (List Scalar)) (consts : List Scalar)
    (k : Nat) (ws : List Scalar) (h1 : 0 < ws.length) (h2 : consts.length < k + ws.length) :
    Permutation.apply_full_round m consts k ws = .noMoreConstants := by
  unfold Permutation.apply_full_round
  rw [add_round_key_err consts ws k h1 h2]
  rfl

theorem apply_partial_round_ok (m : List (List Scalar)) (consts : List Scalar)
    (k : Nat) (w0 : Scalar) (rest : List Scalar)
    (h : k + (w0 :: rest).length ≤ consts.length) :
    Permutation.apply_partial_round m consts k (w0 :: rest) =
      .ok (MDSMatrix.mul_vector m
            (Permutation.quintic_s_box (w0 + consts.getD k 0) ::
              List.zipWith (· + ·) rest ((consts.drop (k + 1)).take rest.length)),
           k + rest.length + 1) := by
  unfold Permutation.apply_partial_round
  rw [add_round_key_ok consts _ k h]
  simp only [List.length_cons] at h
  have hk : k < consts.length := by omega
  rw [List.drop_eq_getElem_cons hk]
  simp only [List.take_succ_cons, List.zipWith_cons_cons, EvalRes.bind, EvalRes.ok.injEq,
    Prod.mk.injEq, List.length_cons]
  refine ⟨?_, by omega⟩
  congr 2
  rw [List.getD_eq_getElem _ _ hk]

theorem apply_partial_round_err (m : List (List Scalar)) (consts : List Scalar)
    (k : Nat) (ws : List Scalar) (h1 : 0 < ws.length) (h2 : consts.length < k + ws.length) :
    Permutation.apply_partial_round m consts k ws = .noMoreConstants := by
  unfold Permutation.apply_partial_round
  rw [add_round_key_err consts ws k h1 h2]
  rfl

theorem apply_partial_round_nil (m : List (List Scalar)) (consts : List Scalar) (k : Nat) :
    Permutation.apply_partial_round m consts k [] = .panicked := rfl

theorem constrain_apply_partial_round_nil (m : List (List Scalar)) (consts : List Scalar)
    (k : Nat) (cs : CS) :
    Permutation.constrain_apply_partial_round m consts k [] cs = .panicked := rfl

end Hades252

namespace Hades252

theorem iterRounds_ok_inv {α : Type} (f : α → EvalRes α) (Inv : α → Prop)
    (hf : ∀ a b, Inv a → f a = .ok b → Inv b) :
    ∀ (n : Nat) (a b : α), Inv a → iterRounds f n a = .ok b → Inv b := by
  intro n
  induction n with
  | zero =>
    intro a b ha h
    rw [iterRounds_zero] at h
    cases h
    exact ha
  | succ n ih =>
    intro a b ha h
    rw [iterRounds_succ] at h
    rcases hfa : f a with a2 | - | - <;> rw [hfa] at h <;> simp only [EvalRes.bind] at h
    · exact ih a2 b (hf a a2 ha hfa) h
    · cases h
    · cases h

theorem apply_full_round_ok_shape (m : List (List Scalar)) (consts : List Scalar)
    (k : Nat) (ws : List Scalar) (b : List Scalar × Nat)
    (hlen : ws.length ≤ m.length)
    (h : Permutation.apply_full_round m consts k ws = .ok b) :
    b.1.length = ws.length ∧ b.2 = k + ws.length := by
  rcases le_or_lt (k + ws.length) consts.length with hle | hlt
  · rw [apply_full_round_ok m consts k ws hle] at h
    cases h
    refine ⟨?_, rfl⟩
    rw [MDSMatrix.mul_vector_length]
    simp only [List.length_map, List.length_zipWith, List.length_take, List.length_drop]
    omega
  · cases ws with
    | nil =>
      have hnil : Permutation.apply_full_round m consts k [] = .ok ([], k) := rfl
      rw [hnil] at h
      cases h
      exact ⟨rfl, rfl⟩
    | cons w ws2 =>
      rw [apply_full_round_err m consts k _ (by simp) hlt] at h
      cases h

theorem apply_partial_round_ok_shape (m : List (List Scalar)) (consts : List Scalar)
    (k : Nat) (ws : List Scalar) (b : List Scalar × Nat)
    (hlen : ws.length ≤ m.length)
    (h : Permutation.apply_partial_round m consts k ws = .ok b) :
    b.1.length = ws.length ∧ b.2 = k + ws.length := by
  cases ws with
  | nil => rw [apply_partial_round_nil] at h; cases h
  | cons w0 rest =>
    rcases le_or_lt (k + (w0 :: rest).length) consts.length with hle | hlt
    · rw [apply_partial_round_ok m consts k w0 rest hle] at h
      cases h
      simp only [List.length_cons] at hle hlen ⊢
      refine ⟨?_, by omega⟩
      rw [MDSMatrix.mul_vector_length]
      simp only [List.length_cons, List.length_zipWith, List.length_take, List.length_drop]
      omega
    · rw [apply_partial_round_err m consts k _ (by simp) hlt] at h
      cases h

theorem resultAux_ok_inv (perm : Permutation) (Inv : List Scalar × Nat → Prop)
    (hfull : ∀ s b, Inv s → perm.fullStep s = .ok b → Inv b)
    (hpart : ∀ s b, Inv s → perm.partStep s = .ok b → Inv b)
    (hinit : Inv (perm.data, 0)) :
    ∀ r, perm.resultAux = .ok r → Inv r := by
  intro r h
  unfold Permutation.resultAux at h
  rcases h1 : iterRounds perm.fullStep (perm.full_rounds / 2) (perm.data, 0) with s1 | - | - <;>
    rw [h1] at h <;> simp only [EvalRes.bind] at h
  · rcases h2 : iterRounds perm.partStep perm.partial_rounds s1 with s2 | - | - <;>
      rw [h2] at h <;> simp only [EvalRes.bind] at h
    · have i1 := iterRounds_ok_inv _ Inv hfull _ _ _ hinit h1
      have i2 := iterRounds_ok_inv _ Inv hpart _ _ _ i1 h2
      exact iterRounds_ok_inv _ Inv hfull _ _ _ i2 h
    · cases h
    · cases h
  · cases h
  · cases h

theorem resultAux_ok_length (perm : Permutation) (hm : perm.data.length ≤ perm.matrix.length)
    (r : List Scalar × Nat) (h : perm.resultAux = .ok r) : r.1.length = perm.data.length := by
  refine resultAux_ok_inv perm (fun s => s.1.length = perm.data.length) ?_ ?_ rfl r h
  · intro s b hs hstep
    have := apply_full_round_ok_shape perm.matrix perm.constants s.2 s.1 b
      (by rw [hs]; exact hm) hstep
    exact this.1.trans hs
  · intro s b hs hstep
    have := apply_partial_round_ok_shape perm.matrix perm.constants s.2 s.1 b
      (by rw [hs]; exact hm) hstep
    exact this.1.trans hs

end Hades252

namespace Hades252

theorem fullStep_nil (perm : Permutation) (k : Nat) :
    perm.fullStep ([], k) = .ok ([], k) := rfl

theorem iter_fullStep_nil (perm : Permutation) :
    ∀ (n : Nat) (k : Nat), iterRounds perm.fullStep n ([], k) = .ok ([], k) := by
  intro n
  induction n with
  | zero => intro k; rfl
  | succ n ih =>
    intro k
    rw [iterRounds_succ, fullStep_nil]
    exact ih k

theorem partStep_nil (perm : Permutation) (k : Nat) :
    perm.partStep ([], k) = .panicked := rfl

theorem iter_partStep_nil_succ (perm : Permutation) (n k : Nat) :
    iterRounds perm.partStep (n + 1) ([], k) = .panicked := by
  rw [iterRounds_succ, partStep_nil]
  rfl

theorem cPartStep_nil (perm : Permutation) (k : Nat) (cs : CS) :
    perm.cPartStep ([], k, cs) = .panicked := rfl

theorem iter_full_ok (perm : Permutation) :
    ∀ (n : Nat) (ws : List Scalar) (k : Nat),
    ws.length ≤ perm.matrix.length →
    k + n * ws.length ≤ perm.constants.length →
    ∃ ws2, iterRounds perm.fullStep n (ws, k) = .ok (ws2, k + n * ws.length) ∧
      ws2.length = ws.length := by
  intro n
  induction n with
  | zero =>
    intro ws k h1 h2
    exact ⟨ws, by simp [iterRounds_zero], rfl⟩
  | succ n ih =>
    intro ws k h1 h2
    have hle : k + ws.length ≤ perm.constants.length := by
      rw [Nat.succ_mul] at h2; omega
    have hstep : perm.fullStep (ws, k) =
        .ok (MDSMatrix.mul_vector perm.matrix
              ((List.zipWith (· + ·) ws ((perm.constants.drop k).take ws.length)).map
                Permutation.quintic_s_box), k + ws.length) :=
      apply_full_round_ok perm.matrix perm.constants k ws hle
    have hlen1 : (MDSMatrix.mul_vector perm.matrix
        ((List.zipWith (· + ·) ws ((perm.constants.drop k).take ws.length)).map
          Permutation.quintic_s_box)).length = ws.length := by
      rw [MDSMatrix.mul_vector_length]
      simp only [List.length_map, List.length_zipWith, List.length_take, List.length_drop]
      omega
    obtain ⟨ws2, hiter, hlen2⟩ := ih _ (k + ws.length) (by rw [hlen1]; exact h1)
      (by rw [hlen1, Nat.succ_mul] at *; omega)
    rw [hlen1] at hiter
    refine ⟨ws2, ?_, hlen2.trans hlen1⟩
    rw [iterRounds_succ, hstep, EvalRes.bind_ok, hiter]
    have harith : k + ws.length + n * ws.length = k + (n + 1) * ws.length := by ring
    rw [harith]

theorem apply_partial_round_ok_exists (m : List (List Scalar)) (consts : List Scalar)
    (k : Nat) (ws : List Scalar) (h1 : 0 < ws.length)
    (hle : k + ws.length ≤ consts.length) (hlen : ws.length ≤ m.length) :
    ∃ ws1, Permutation.apply_partial_round m consts k ws = .ok (ws1, k + ws.length) ∧
      ws1.length = ws.length := by
  cases ws with
  | nil => simp at h1
  | cons w0 rest =>
    refine ⟨_, apply_partial_round_ok m consts k w0 rest hle, ?_⟩
    rw [MDSMatrix.mul_vector_length]
    simp only [List.length_cons, List.length_zipWith, List.length_take, List.length_drop]
    simp only [List.length_cons] at hle hlen
    omega

theorem iter_part_ok (perm : Permutation) :
    ∀ (n : Nat) (ws : List Scalar) (k : Nat),
    0 < ws.length →
    ws.length ≤ perm.matrix.length →
    k + n * ws.length ≤ perm.constants.length →
    ∃ ws2, iterRounds perm.partStep n (ws, k) = .ok (ws2, k + n * ws.length) ∧
      ws2.length = ws.length := by
  intro n
  induction n with
  | zero =>
    intro ws k h0 h1 h2
    exact ⟨ws, by simp [iterRounds_zero], rfl⟩
  | succ n ih =>
    intro ws k h0 h1 h2
    have hle : k + ws.length ≤ perm.constants.length := by
      rw [Nat.succ_mul] at h2; omega
    obtain ⟨ws1, hstep, hlen1⟩ :=
      apply_partial_round_ok_exists perm.matrix perm.constants k ws h0 hle h1
    obtain ⟨ws2, hiter, hlen2⟩ := ih ws1 (k + ws.length) (by rw [hlen1]; exact h0)
      (by rw [hlen1]; exact h1) (by rw [hlen1, Nat.succ_mul] at *; omega)
    rw [hlen1] at hiter
    refine ⟨ws2, ?_, hlen2.trans hlen1⟩
    have hstep2 : perm.partStep (ws, k) = .ok (ws1, k + ws.length) := hstep
    rw [iterRounds_succ, hstep2, EvalRes.bind_ok, hiter]
    have harith : k + ws.length + n * ws.length = k + (n + 1) * ws.length := by ring
    rw [harith]

end Hades252

namespace Hades252

theorem result_nmc_iff (perm : Permutation) :
    perm.result = .noMoreConstants ↔ perm.resultAux = .noMoreConstants := by
  unfold Permutation.result
  cases perm.resultAux <;> simp [EvalRes.bind]

theorem constrain_result_nmc_iff (perm : Permutation) (cs : CS) (words : List Variable) :
    perm.constrain_result cs words = .noMoreConstants ↔
    perm.constrain_resultAux cs words = .noMoreConstants := by
  unfold Permutation.constrain_result
  cases perm.constrain_resultAux cs words <;> simp [EvalRes.bind]

theorem StateMatch.nmc_iff {r1 : EvalRes (List Scalar × Nat)}
    {r2 : EvalRes (List LinComb × Nat × CS)} (h : StateMatch r1 r2) :
    r1 = .noMoreConstants ↔ r2 = .noMoreConstants := by
  cases r1 <;> cases r2 <;> simp_all [StateMatch]

theorem resultAux_ne_nmc (t fullR pR : Nat) (data : List Scalar) (hlen : data.length ≤ t) :
    Permutation.resultAux
        ⟨t, fullR, pR, data, RoundConstants.generate fullR pR t, MDSMatrix.generate t⟩ ≠
      .noMoreConstants := by
  have hmat : (MDSMatrix.generate t).length = t := generate_matrix_length t
  have hconst : (RoundConstants.generate fullR pR t).length = t * (fullR + pR) :=
    generate_constants_length fullR pR t
  set perm : Permutation :=
    ⟨t, fullR, pR, data, RoundConstants.generate fullR pR t, MDSMatrix.generate t⟩ with hperm
  have hb : ∀ a : Nat, a ≤ fullR + pR → a * data.length ≤ perm.constants.length := by
    intro a ha
    calc a * data.length ≤ (fullR + pR) * t := Nat.mul_le_mul ha hlen
    _ = t * (fullR + pR) := Nat.mul_comm _ _
    _ = perm.constants.length := hconst.symm
  rcases Nat.eq_zero_or_pos data.length with h0 | hpos
  · have hdata : data = [] := List.length_eq_zero.mp h0
    unfold Permutation.resultAux
    have hd : perm.data = [] := hdata
    rw [hd, iter_fullStep_nil, EvalRes.bind_ok]
    cases hpr : perm.partial_rounds with
    | zero => rw [iterRounds_zero, EvalRes.bind_ok, iter_fullStep_nil]; simp
    | succ n => rw [iter_partStep_nil_succ]; simp [EvalRes.bind]
  · have hmat2 : data.length ≤ perm.matrix.length := by rw [hperm]; simpa [hmat] using hlen
    obtain ⟨ws1, h1, hl1⟩ := iter_full_ok perm (fullR / 2) data 0 hmat2
      (by simpa using hb (fullR / 2) (by omega))
    obtain ⟨ws2, h2, hl2⟩ := iter_part_ok perm pR ws1 (0 + fullR / 2 * data.length)
      (by rw [hl1]; exact hpos) (by rw [hl1]; exact hmat2)
      (by rw [hl1, Nat.zero_add, ← Nat.add_mul]; exact hb (fullR / 2 + pR) (by omega))
    rw [hl1] at h2
    obtain ⟨ws3, h3, hl3⟩ := iter_full_ok perm (fullR / 2)
      ws2 (0 + fullR / 2 * data.length + pR * data.length)
      (by rw [hl2, hl1]; exact hmat2)
      (by rw [hl2, hl1, Nat.zero_add, ← Nat.add_mul, ← Nat.add_mul]
          exact hb (fullR / 2 + pR + fullR / 2) (by omega))
    unfold Permutation.resultAux
    have hd : perm.data = data := rfl
    have hf : perm.full_rounds = fullR := rfl
    have hp : perm.partial_rounds = pR := rfl
    rw [hd, hf, hp] at *
    rw [h1, EvalRes.bind_ok, h2, EvalRes.bind_ok, h3]
    simp

end Hades252

namespace Hades252

/-- C4: the concrete quintic substitution returns exactly x^5, computed by repeated
field multiplication; the constrained form allocates exactly three multiplication
gates in the fixed order x*x → x², x²*x² → x⁴, x⁴*x → x⁵ (appended to the gate
list in that order, the operand wire values being the evaluations of the operand
linear combinations), and returns the third gate's output wire — as a singleton
linear combination — as its result. -/
theorem C4_quintic_s_box :
    (∀ x : Scalar, Permutation.quintic_s_box x = x ^ 5) ∧
    (∀ (lc : LinComb) (cs : CS),
      Permutation.constrain_quintic_s_box lc cs =
        ([(.mulO (cs.muls.length + 2), 1)],
         ⟨cs.inputs,
          cs.muls ++
            [(cs.evalLC lc, cs.evalLC lc, cs.evalLC lc * cs.evalLC lc),
             (cs.evalLC lc * cs.evalLC lc, cs.evalLC lc * cs.evalLC lc,
              cs.evalLC lc * cs.evalLC lc * (cs.evalLC lc * cs.evalLC lc)),
             (cs.evalLC lc * cs.evalLC lc * (cs.evalLC lc * cs.evalLC lc), cs.evalLC lc,
              cs.evalLC lc * cs.evalLC lc * (cs.evalLC lc * cs.evalLC lc) * cs.evalLC lc)]⟩)) :=
  ⟨fun x => by unfold Permutation.quintic_s_box; ring,
   fun lc cs => Permutation.constrain_quintic_s_box_eq lc cs⟩

/-- C6: `inputs` fails with `InputFull` exactly when the batch length plus the
current buffer length exceeds the width; the post-state buffer is unchanged on
failure (all-or-nothing) and is the buffer with the batch appended in order on
success. -/
theorem C6_inputs_batch (perm : Permutation) (scalars : List Scalar) :
    ((perm.inputs scalars).1 = .error .inputFull ↔
      perm.t < scalars.length + perm.data.length) ∧
    ((perm.inputs scalars).1 = .ok () ↔
      ¬ perm.t < scalars.length + perm.data.length) ∧
    (perm.inputs scalars).2 =
      (if perm.t < scalars.length + perm.data.length then perm
       else { perm with data := perm.data ++ scalars }) := by
  unfold Permutation.inputs
  split <;> simp_all

/-- C7: `new` fails with `FullRoundsOdd` exactly when the full-round count is odd;
for every even full-round count (including 0) it returns an instance with an empty
input buffer and freshly generated constants and matrix for the given width, and
`default` (width 9, 8 full rounds, 59 partial rounds) is a plain value with no
failure path, equal to the successful result of `new 9 8 59`. -/
theorem C7_new_parity (t fullR pR : Nat) :
    (Permutation.new t fullR pR = .error .fullRoundsOdd ↔ fullR % 2 = 1) ∧
    (Permutation.new t fullR pR =
        .ok ⟨t, fullR, pR, [], RoundConstants.generate fullR pR t, MDSMatrix.generate t⟩ ↔
      fullR % 2 = 0) ∧
    Permutation.new 9 8 59 = .ok Permutation.default ∧
    Permutation.default =
      ⟨9, 8, 59, [], RoundConstants.generate 8 59 9, MDSMatrix.generate 9⟩ := by
  refine ⟨?_, ?_, by simp [Permutation.new, Permutation.default], rfl⟩ <;>
    rcases Nat.mod_two_eq_zero_or_one fullR with h | h <;>
      simp [Permutation.new, h]

/-- C8: `input` fails with `InputFull` exactly when the buffer length already
equals the width, leaving the buffer unchanged; otherwise it appends the one
element, growing the buffer by exactly 1.  `input_bytes` maps its byte string
deterministically to a single field element via `hash_from_bytes` and then behaves
identically to `input`, including the failure mode. -/
theorem C8_input_single (perm : Permutation) (scalar : Scalar) (bytes : List (Fin 256)) :
    ((perm.input scalar).1 = .error .inputFull ↔ perm.data.length = perm.t) ∧
    (perm.input scalar).2 =
      (if perm.data.length = perm.t then perm
       else { perm with data := perm.data ++ [scalar] }) ∧
    (perm.input scalar).2.data.length =
      (if perm.data.length = perm.t then perm.data.length else perm.data.length + 1) ∧
    perm.input_bytes bytes = perm.input (hash_from_bytes bytes) := by
  refine ⟨?_, ?_, ?_, rfl⟩ <;>
    · unfold Permutation.input Permutation.input_full
      rcases Nat.decEq perm.data.length perm.t with h | h <;> simp_all

end Hades252

namespace Hades252

/-- C9: the invariant `input_buffer.length ≤ width` is established by `new` and
`default` and preserved by `input`, `input_bytes`, `inputs` and `reset` (`result`,
`constrain_result` and `width_left` take the permutation immutably and return no
new state, so they preserve it trivially); consequently `width_left + length = t`
(no underflow) and `width_left = 0` exactly when the buffer is full. -/
theorem C9_buffer_invariant :
    (∀ (t fullR pR : Nat) (p2 : Permutation), Permutation.new t fullR pR = .ok p2 →
      p2.data.length ≤ p2.t) ∧
    Permutation.default.data.length ≤ Permutation.default.t ∧
    (∀ (perm : Permutation) (s : Scalar), perm.data.length ≤ perm.t →
      (perm.input s).2.data.length ≤ (perm.input s).2.t) ∧
    (∀ (perm : Permutation) (bs : List (Fin 256)), perm.data.length ≤ perm.t →
      (perm.input_bytes bs).2.data.length ≤ (perm.input_bytes bs).2.t) ∧
    (∀ (perm : Permutation) (sc : List Scalar), perm.data.length ≤ perm.t →
      (perm.inputs sc).2.data.length ≤ (perm.inputs sc).2.t) ∧
    (∀ perm : Permutation, perm.reset.data.length ≤ perm.reset.t) ∧
    (∀ perm : Permutation, perm.data.length ≤ perm.t →
      perm.width_left + perm.data.length = perm.t ∧
      (perm.width_left = 0 ↔ perm.data.length = perm.t)) := by
  refine ⟨?_, ?_, ?_, ?_, ?_, ?_, ?_⟩
  · intro t fullR pR p2 h
    unfold Permutation.new at h
    by_cases hm : fullR % 2 ≠ 0
    · simp [hm] at h
    · simp only [hm, if_false] at h
      cases h
      simp
  · simp [Permutation.default]
  · intro perm s h
    unfold Permutation.input Permutation.input_full
    rcases Nat.decEq perm.data.length perm.t with h1 | h1 <;> simp_all
    omega
  · intro perm bs h
    unfold Permutation.input_bytes Permutation.input Permutation.input_full
    rcases Nat.decEq perm.data.length perm.t with h1 | h1 <;> simp_all
    omega
  · intro perm sc h
    unfold Permutation.inputs
    split <;> simp_all
    omega
  · intro perm
    simp [Permutation.reset]
  · intro perm h
    unfold Permutation.width_left
    omega

theorem C9_witness :
    ((⟨2, 0, 0, [3], [], []⟩ : Permutation).data.length ≤
      (⟨2, 0, 0, [3], [], []⟩ : Permutation).t) ∧
    (((⟨2, 0, 0, [3], [], []⟩ : Permutation).input 7).2.data.length ≤
      ((⟨2, 0, 0, [3], [], []⟩ : Permutation).input 7).2.t) :=
  ⟨by decide, C9_buffer_invariant.2.2.1 ⟨2, 0, 0, [3], [], []⟩ 7 (by decide)⟩

/-- C2: for every permutation whose buffer fits the mixing matrix (true of every
state reachable through the construction and input API, where the matrix is
`width × width` and the buffer never exceeds `width`), a successful `result`
returns a vector of exactly the buffer's length. -/
theorem C2_result_length (perm : Permutation) (hm : perm.data.length ≤ perm.matrix.length)
    (ws : List Scalar) (h : perm.result = .ok ws) : ws.length = perm.data.length := by
  unfold Permutation.result at h
  rcases hr : perm.resultAux with r | - | - <;> rw [hr] at h <;> simp only [EvalRes.bind] at h
  · cases h
    exact resultAux_ok_length perm hm r hr
  · cases h
  · cases h

theorem C2_witness :
    ((⟨1, 2, 0, [3], RoundConstants.generate 2 0 1, MDSMatrix.generate 1⟩ :
        Permutation).data.length ≤
      (⟨1, 2, 0, [3], RoundConstants.generate 2 0 1, MDSMatrix.generate 1⟩ :
        Permutation).matrix.length) ∧
    Permutation.result ⟨1, 2, 0, [3], RoundConstants.generate 2 0 1, MDSMatrix.generate 1⟩ =
      .ok [244 * 244 * 244 * 244 * 244] ∧
    ([244 * 244 * 244 * 244 * 244] : List Scalar).length =
      (⟨1, 2, 0, [3], RoundConstants.generate 2 0 1, MDSMatrix.generate 1⟩ :
        Permutation).data.length :=
  ⟨by decide, by decide, C2_result_length _ (by decide) _ (by decide)⟩

/-- C10: the partial-round executors write unconditionally to index 0 after key
addition, so on an empty word vector they abort (`panicked`) instead of returning;
consequently a permutation with 0 full rounds, at least one partial round and an
empty buffer has no value-returning `result` (and no value-returning
`constrain_result`). -/
theorem C10_partial_round_totality (t pR : Nat) (hp : 1 ≤ pR) (cs : CS) :
    (∀ (m : List (List Scalar)) (consts : List Scalar) (k : Nat),
      Permutation.apply_partial_round m consts k [] = .panicked) ∧
    (∀ (m : List (List Scalar)) (consts : List Scalar) (k : Nat) (cs2 : CS),
      Permutation.constrain_apply_partial_round m consts k [] cs2 = .panicked) ∧
    Permutation.result
        ⟨t, 0, pR, [], RoundConstants.generate 0 pR t, MDSMatrix.generate t⟩ = .panicked ∧
    Permutation.constrain_result
        ⟨t, 0, pR, [], RoundConstants.generate 0 pR t, MDSMatrix.generate t⟩ cs [] =
      .panicked := by
  obtain ⟨n, rfl⟩ : ∃ n, pR = n + 1 := ⟨pR - 1, by omega⟩
  refine ⟨fun m consts k => apply_partial_round_nil m consts k,
          fun m consts k cs2 => constrain_apply_partial_round_nil m consts k cs2, ?_, ?_⟩
  · have haux : Permutation.resultAux
        ⟨t, 0, n + 1, [], RoundConstants.generate 0 (n + 1) t, MDSMatrix.generate t⟩ =
        .panicked := by
      unfold Permutation.resultAux
      rw [show (Permutation.mk t 0 (n + 1) [] (RoundConstants.generate 0 (n + 1) t)
            (MDSMatrix.generate t)).full_rounds / 2 = 0 by simp]
      rw [iterRounds_zero, EvalRes.bind_ok]
      rw [show (Permutation.mk t 0 (n + 1) [] (RoundConstants.generate 0 (n + 1) t)
            (MDSMatrix.generate t)).partial_rounds = n + 1 from rfl]
      rw [show (Permutation.mk t 0 (n + 1) [] (RoundConstants.generate 0 (n + 1) t)
            (MDSMatrix.generate t)).data = ([] : List Scalar) from rfl]
      rw [iter_partStep_nil_succ]
      rfl
    unfold Permutation.result
    rw [haux]
    rfl
  · unfold Permutation.constrain_result Permutation.constrain_resultAux
    rw [show (Permutation.mk t 0 (n + 1) [] (RoundConstants.generate 0 (n + 1) t)
          (MDSMatrix.generate t)).full_rounds / 2 = 0 by simp]
    rw [iterRounds_zero, EvalRes.bind_ok]
    rw [show (Permutation.mk t 0 (n + 1) [] (RoundConstants.generate 0 (n + 1) t)
          (MDSMatrix.generate t)).partial_rounds = n + 1 from rfl]
    rw [show (([] : List Variable).map fun v => ([(v, (1 : Scalar))] : LinComb)) =
          ([] : List LinComb) from rfl]
    rw [iterRounds_succ, cPartStep_nil]
    rfl

theorem C10_witness :
    (1 : Nat) ≤ 1 ∧
    Permutation.result ⟨3, 0, 1, [], RoundConstants.generate 0 1 3, MDSMatrix.generate 3⟩ =
      .panicked :=
  ⟨Nat.le_refl 1, (C10_partial_round_totality 3 1 (Nat.le_refl 1) ⟨[], []⟩).2.2.1⟩

end Hades252

namespace Hades252

/-- C3 (amended): `result` applies exactly full_round_count/2 full rounds, then
partial_round_count partial rounds, then full_round_count/2 full rounds to a
working copy of the buffer, where a round's key addition draws one constant per
word of the working vector, in table order, advancing the cursor by the vector's
length (this equals `width` exactly when the working vector holds `width` words,
i.e. when the buffer is full); a full round then applies the quintic substitution
to every word and multiplies by the mixing matrix, while a partial round applies
the substitution to word index 0 only before the same multiply. -/
theorem C3_round_schedule :
    (∀ perm : Permutation,
      perm.resultAux =
        (iterRounds perm.fullStep (perm.full_rounds / 2) (perm.data, 0)).bind fun s1 =>
        (iterRounds perm.partStep perm.partial_rounds s1).bind fun s2 =>
        iterRounds perm.fullStep (perm.full_rounds / 2) s2) ∧
    (∀ (m : List (List Scalar)) (consts : List Scalar) (k : Nat) (ws : List Scalar),
      k + ws.length ≤ consts.length →
      Permutation.apply_full_round m consts k ws =
        .ok (MDSMatrix.mul_vector m
              ((List.zipWith (· + ·) ws ((consts.drop k).take ws.length)).map
                Permutation.quintic_s_box), k + ws.length)) ∧
    (∀ (m : List (List Scalar)) (consts : List Scalar) (k : Nat) (w0 : Scalar)
        (rest : List Scalar),
      k + (w0 :: rest).length ≤ consts.length →
      Permutation.apply_partial_round m consts k (w0 :: rest) =
        .ok (MDSMatrix.mul_vector m
              (Permutation.quintic_s_box (w0 + consts.getD k 0) ::
                List.zipWith (· + ·) rest ((consts.drop (k + 1)).take rest.length)),
             k + rest.length + 1)) :=
  ⟨fun _ => rfl, apply_full_round_ok, apply_partial_round_ok⟩

/-- C3 counterexample: the frozen claim says a full round adds the next `width`
round constants.  For a width-2 permutation holding a 1-element buffer, `result`
succeeds while each of its two full rounds consumes only one constant — the final
cursor is 2, not the (2/2 + 0 + 2/2) * 2 = 4 the claim's reading would give. -/
theorem C3_counterexample :
    Permutation.resultAux
        ⟨2, 2, 0, [5], RoundConstants.generate 2 0 2, MDSMatrix.generate 2⟩ =
      .ok ([3126 * 3126 * 3126 * 3126 * 3126], 2) ∧
    (2 : Nat) ≠ (2 / 2 + 0 + 2 / 2) * 2 :=
  ⟨by decide, by decide⟩

theorem C3_witness :
    0 + [(5 : Scalar)].length ≤ (RoundConstants.generate 2 0 1).length ∧
    Permutation.apply_full_round (MDSMatrix.generate 1) (RoundConstants.generate 2 0 1) 0
        [(5 : Scalar)] =
      .ok (MDSMatrix.mul_vector (MDSMatrix.generate 1)
            ((List.zipWith (· + ·) [(5 : Scalar)]
                (((RoundConstants.generate 2 0 1).drop 0).take [(5 : Scalar)].length)).map
              Permutation.quintic_s_box),
           0 + [(5 : Scalar)].length) :=
  ⟨by decide, C3_round_schedule.2.1 _ _ 0 _ (by decide)⟩

/-- C5: for every permutation built the way `new` and `default` build them (the
constant table holds exactly width*(full+partial) elements, the matrix is
width × width) and every reachable buffer state (length at most the width), neither
`result` nor `constrain_result` (on a pre-allocated variable vector of length at
most the width) can return `NoMoreConstants`: the constant cursor cannot be
exhausted. -/
theorem C5_no_constant_exhaustion (t fullR pR : Nat) (data : List Scalar)
    (hlen : data.length ≤ t) (cs : CS) (words : List Variable)
    (hw : words.length ≤ t) (hv : ∀ v ∈ words, v.ValidIn cs.muls.length) :
    Permutation.result
        ⟨t, fullR, pR, data, RoundConstants.generate fullR pR t, MDSMatrix.generate t⟩ ≠
      .noMoreConstants ∧
    Permutation.constrain_result
        ⟨t, fullR, pR, data, RoundConstants.generate fullR pR t, MDSMatrix.generate t⟩
        cs words ≠ .noMoreConstants := by
  constructor
  · rw [Ne, result_nmc_iff]
    exact resultAux_ne_nmc t fullR pR data hlen
  · rw [Ne, constrain_result_nmc_iff]
    intro hcon
    have hsim := resultAux_sim
      ⟨t, fullR, pR, words.map cs.evalVar, RoundConstants.generate fullR pR t,
        MDSMatrix.generate t⟩ cs words rfl hv
    have hsame : Permutation.constrain_resultAux
        ⟨t, fullR, pR, words.map cs.evalVar, RoundConstants.generate fullR pR t,
          MDSMatrix.generate t⟩ cs words =
        Permutation.constrain_resultAux
        ⟨t, fullR, pR, data, RoundConstants.generate fullR pR t, MDSMatrix.generate t⟩
        cs words := rfl
    rw [hsame] at hsim
    exact resultAux_ne_nmc t fullR pR (words.map cs.evalVar)
      (by rw [List.length_map]; exact hw) (hsim.nmc_iff.mpr hcon)

theorem C5_witness :
    ([(3 : Scalar)].length ≤ 1) ∧ (([] : List Variable).length ≤ 1) ∧
    (∀ v ∈ ([] : List Variable), v.ValidIn (CS.mk [] []).muls.length) ∧
    (Permutation.result
        ⟨1, 2, 0, [3], RoundConstants.generate 2 0 1, MDSMatrix.generate 1⟩ ≠
      .noMoreConstants ∧
     Permutation.constrain_result
        ⟨1, 2, 0, [3], RoundConstants.generate 2 0 1, MDSMatrix.generate 1⟩ ⟨[], []⟩ [] ≠
      .noMoreConstants) :=
  ⟨by decide, by decide, by decide,
   C5_no_constant_exhaustion 1 2 0 [3] (by decide) ⟨[], []⟩ [] (by decide) (by decide)⟩

/-- C1: for every configuration and every input buffer, the concrete evaluator
(`resultAux`, i.e. `result` with its final constant cursor exposed) and the
constrained evaluator with the input variables bound to the same buffer values
produce matching outcomes (`StateMatch`): both succeed, both fail with
`NoMoreConstants`, or both abort — and on success the two final constant cursors
are identical (the two paths consume the round constants in identical order and
count, round for round) and the output linear combinations evaluate, under the
final constraint system, to exactly the concrete output words. -/
theorem C1_concrete_constrained_equiv (perm : Permutation) (cs : CS)
    (words : List Variable)
    (hbound : words.map cs.evalVar = perm.data)
    (hvalid : ∀ v ∈ words, v.ValidIn cs.muls.length) :
    StateMatch perm.resultAux (perm.constrain_resultAux cs words) :=
  resultAux_sim perm cs words hbound hvalid

theorem C1_witness :
    ([Variable.committed 0, Variable.committed 1].map
        (CS.evalVar ⟨[(1 : Scalar), 2], []⟩) = [(1 : Scalar), 2]) ∧
    (∀ v ∈ [Variable.committed 0, Variable.committed 1],
        v.ValidIn (CS.mk [(1 : Scalar), 2] []).muls.length) ∧
    StateMatch
      (Permutation.resultAux
        ⟨2, 2, 1, [1, 2], RoundConstants.generate 2 1 2, MDSMatrix.generate 2⟩)
      (Permutation.constrain_resultAux
        ⟨2, 2, 1, [1, 2], RoundConstants.generate 2 1 2, MDSMatrix.generate 2⟩
        ⟨[1, 2], []⟩ [Variable.committed 0, Variable.committed 1]) :=
  ⟨by decide, by decide, C1_concrete_constrained_equiv _ _ _ (by decide) (by decide)⟩

end Hades252
